import Mathlib

/-!
# Verification of the day/area co-occurrence graph analyzer

Shallow embedding of the core of the Rust program (`src/graph.rs`,
`src/analysis.rs`): graph construction from (date, area) records, BFS
distances, degree distribution, average shortest-path length and closeness
centrality, together with proofs of the specification claims.

Modelling conventions:
* `chrono::NaiveDate` is modelled as a record of three naturals; the core
  only ever compares dates for equality.
* `petgraph::UnGraph` is modelled concretely as the node list (node index =
  list position, mirroring petgraph's dense indices in insertion order) plus
  the edge list of index pairs.
* Rust `HashMap`s are modelled as association lists.  `HashMap` iteration
  order is unspecified in Rust; the embedding fixes the canonical order
  (dates in first-appearance order, node indices ascending) — every claim
  below concerns the key→value mapping, node/edge sets or counts, all of
  which are independent of that choice.
* `u64`/`usize` arithmetic is modelled on `ℕ` (the quantities involved are
  bounded by small polynomials in the input size, far below 2^64).
* `f64` values are modelled exactly by `F64` (NaN, infinity, or a rational);
  the divisions performed by the program are modelled exactly, including the
  IEEE rules `0.0 / 0.0 = NaN` and `x / 0.0 = ∞` for `x > 0`.
-/

/-- `chrono::NaiveDate`: the core uses dates only as equality-comparable keys. -/
structure NaiveDate where
  year : ℕ
  month : ℕ
  dayOfMonth : ℕ
deriving DecidableEq, Repr

/-- A graph node's weight: the `(NaiveDate, String)` identity pair. -/
abbrev GNode := NaiveDate × String

/-- `petgraph::UnGraph<(NaiveDate, String), ()>`: node weights indexed by
position, and undirected edges as pairs of node indices. -/
structure Graph where
  nodes : List GNode
  edges : List (ℕ × ℕ)
deriving DecidableEq, Repr

/-- `graph.neighbors(v)`: every edge incident to `v` contributes its other
endpoint (a self-loop contributes `v` once). -/
def Graph.neighbors (g : Graph) (v : ℕ) : List ℕ :=
  g.edges.foldr
    (fun e acc => if e.1 = v then e.2 :: acc else if e.2 = v then e.1 :: acc else acc) []

/-- `graph.node_count()`. -/
def Graph.node_count (g : Graph) : ℕ := g.nodes.length

/-- `graph.edge_count()`. -/
def Graph.edge_count (g : Graph) : ℕ := g.edges.length

/-- `map.entry(k).or_insert(..)` on a list of distinct keys: append the key
if it is absent, else leave the list unchanged. -/
def insertAbsent {α : Type} [DecidableEq α] (ns : List α) (e : α) : List α :=
  if e ∈ ns then ns else ns ++ [e]

/-- Step 2 of `build_graph`: insert each record's identity once, in first
occurrence order (`idx_map.entry(..).or_insert_with(|| graph.add_node(..))`). -/
def addNodes (entries : List GNode) : List GNode :=
  entries.foldl insertAbsent []

/-- The distinct dates of the node list, in first-appearance order (the keys
of the `daily` grouping map). -/
def datesOf (nodes : List GNode) : List NaiveDate :=
  nodes.foldl (fun ds n => insertAbsent ds n.1) []

/-- The members of one date group: all node indices whose date is `d`
(the `daily` map's value vector, in ascending index order). -/
def dayGroup (nodes : List GNode) (d : NaiveDate) : List ℕ :=
  (List.range nodes.length).filter fun i =>
    decide (((nodes.get? i).map Prod.fst) = some d)

/-- `itertools::tuple_combinations`: all ordered-by-position pairs of a list. -/
def tupleCombinations : List ℕ → List (ℕ × ℕ)
  | [] => []
  | x :: xs => (xs.map fun y => (x, y)) ++ tupleCombinations xs

/-- `graph.find_edge(a, b).is_some()` on the edge list: an undirected edge is
found in either orientation. -/
def findEdge (es : List (ℕ × ℕ)) (a b : ℕ) : Bool :=
  es.any fun e => (decide (e.1 = a) && decide (e.2 = b)) ||
    (decide (e.1 = b) && decide (e.2 = a))

/-- The guarded insertion of `build_graph` step 3:
`if graph.find_edge(a, b).is_none() { graph.add_edge(a, b, ()) }`. -/
def addEdge (es : List (ℕ × ℕ)) (e : ℕ × ℕ) : List (ℕ × ℕ) :=
  if findEdge es e.1 e.2 then es else es ++ [e]

/-- The sequence of candidate pairs visited by the two nested loops of
`build_graph` step 3 (per date group, `tuple_combinations` of its members). -/
def edgeStream (nodes : List GNode) : List (ℕ × ℕ) :=
  (datesOf nodes).flatMap fun d => tupleCombinations (dayGroup nodes d)

/-- Step 3 of `build_graph`: fold the guarded insertion over the stream. -/
def build_edges (nodes : List GNode) : List (ℕ × ℕ) :=
  (edgeStream nodes).foldl addEdge []

/-- `build_graph`, from the already-parsed record list (CSV reading and date
parsing are the excluded I/O layer). -/
def build_graph (entries : List GNode) : Graph :=
  let ns := addNodes entries
  { nodes := ns, edges := build_edges ns }

/-- Association-list lookup, modelling `HashMap::get` / `contains_key`. -/
def lookupD (m : List (ℕ × ℕ)) (k : ℕ) : Option ℕ :=
  match m with
  | [] => none
  | (k', v) :: rest => if k' = k then some v else lookupD rest k

/-- The body of the BFS neighbor loop:
`if !dist.contains_key(&nbr) { dist.insert(nbr, d + 1); queue.push_back(nbr) }`. -/
def bfsStep (d : ℕ) (p : List (ℕ × ℕ) × List ℕ) (nbr : ℕ) : List (ℕ × ℕ) × List ℕ :=
  if (lookupD p.1 nbr).isSome then p else (p.1 ++ [(nbr, d + 1)], p.2 ++ [nbr])

/-- The `while let Some(node) = queue.pop_front()` loop of `bfs_distances`.
The `fuel` argument only bounds the number of iterations; `bfsFuel` below is
proved large enough that the queue always empties before it runs out. -/
def bfsLoop (g : Graph) : ℕ → List (ℕ × ℕ) → List ℕ → List (ℕ × ℕ)
  | 0, dist, _ => dist
  | _ + 1, dist, [] => dist
  | fuel + 1, dist, node :: rest =>
    let d := (lookupD dist node).getD 0
    let p := (g.neighbors node).foldl (bfsStep d) (dist, rest)
    bfsLoop g fuel p.1 p.2

/-- Iteration bound for `bfsLoop`: strictly more than twice the number of
possible distance-map keys (`start` and the edge endpoints). -/
def bfsFuel (g : Graph) : ℕ := 2 * (1 + 2 * g.edges.length) + 1

/-- `bfs_distances(graph, start)`: distances to every reachable node. -/
def bfs_distances (g : Graph) (start : ℕ) : List (ℕ × ℕ) :=
  bfsLoop g (bfsFuel g) [(start, 0)] [start]

/-- `*counts.entry(k).or_default() += 1` on an association list. -/
def bumpEntry (m : List (ℕ × ℕ)) (k : ℕ) : List (ℕ × ℕ) :=
  match m with
  | [] => [(k, 1)]
  | (k', v) :: rest => if k' = k then (k', v + 1) :: rest else (k', v) :: bumpEntry rest k

/-- `degree_distribution`: degree → count of nodes with that degree. -/
def degree_distribution (g : Graph) : List (ℕ × ℕ) :=
  (List.range g.nodes.length).foldl (fun m i => bumpEntry m (g.neighbors i).length) []

/-- An exact model of the `f64` values the program produces. -/
inductive F64 where
  | nan : F64
  | inf : F64
  | fin : ℚ → F64
deriving DecidableEq, Repr

/-- `a as f64 / b as f64` for naturals: exact, with the IEEE special cases. -/
def divF (a b : ℕ) : F64 :=
  if b = 0 then (if a = 0 then F64.nan else F64.inf) else F64.fin ((a : ℚ) / (b : ℚ))

/-- The inner sum of `avg_shortest_path`: `dm.values().sum()` for one start. -/
def distSum (g : Graph) (s : ℕ) : ℕ := ((bfs_distances g s).map Prod.snd).sum

/-- The inner count of `avg_shortest_path`: `dm.values().count()` for one start. -/
def distCount (g : Graph) (s : ℕ) : ℕ := (bfs_distances g s).length

/-- `avg_shortest_path`: `total as f64 / pairs as f64` over all starts. -/
def avg_shortest_path (g : Graph) : F64 :=
  divF (((List.range g.nodes.length).map (distSum g)).sum)
    (((List.range g.nodes.length).map (distCount g)).sum)

/-- One node's closeness score:
`if sum > 0.0 { (node_count - 1.0) / sum } else { 0.0 }`. -/
def closenessScore (g : Graph) (i : ℕ) : F64 :=
  if 0 < distSum g i
  then F64.fin (((g.nodes.length : ℚ) - 1) / (distSum g i : ℚ))
  else F64.fin 0

/-- The `scores` vector of `closeness_centrality` before sorting (labels kept
as the `(NaiveDate, String)` identity; the Rust code renders the date to a
string, which is display formatting only). -/
def closeness_scores (g : Graph) : List (GNode × F64) :=
  (List.range g.nodes.length).map fun i =>
    (g.nodes.getD i (⟨0, 0, 0⟩, ""), closenessScore g i)

/-- `partial_cmp` on the `F64` model: `none` exactly when a NaN is involved. -/
def partialCmpF : F64 → F64 → Option Ordering
  | F64.nan, _ => none
  | F64.inf, F64.nan => none
  | F64.fin _, F64.nan => none
  | F64.inf, F64.inf => some Ordering.eq
  | F64.inf, F64.fin _ => some Ordering.gt
  | F64.fin _, F64.inf => some Ordering.lt
  | F64.fin a, F64.fin b =>
    some (if a < b then Ordering.lt else if a = b then Ordering.eq else Ordering.gt)

/-- The sort-order test derived from the comparator
`|a, b| b.1.partial_cmp(&a.1).unwrap()` (descending by score): `x` may be
placed before `y` when the comparator does not order `x` after `y`. -/
def scoreBefore (x y : GNode × F64) : Bool :=
  (partialCmpF y.2 x.2) ≠ some Ordering.gt

/-- Stable insertion into a sorted list. -/
def insertBy (r : GNode × F64 → GNode × F64 → Bool) (x : GNode × F64) :
    List (GNode × F64) → List (GNode × F64)
  | [] => [x]
  | y :: ys => if r x y then x :: y :: ys else y :: insertBy r x ys

/-- The stable sort performed by `scores.sort_by(..)`. -/
def sortByF (r : GNode × F64 → GNode × F64 → Bool) :
    List (GNode × F64) → List (GNode × F64)
  | [] => []
  | x :: xs => insertBy r x (sortByF r xs)

/-- `closeness_centrality(graph, n)`: sort descending by score, take `n`. -/
def closeness_centrality (g : Graph) (n : ℕ) : List (GNode × F64) :=
  (sortByF scoreBefore (closeness_scores g)).take n

/-- Adjacency of the underlying undirected edge relation (either orientation
of some stored edge). -/
def rawAdj (g : Graph) (a b : ℕ) : Prop :=
  ∃ e ∈ g.edges, (e.1 = a ∧ e.2 = b) ∨ (e.1 = b ∧ e.2 = a)

/-- The simple graph on node indices that the analysis phase effectively
works with (self-loops discarded; they never arise from `build_graph`, and
BFS ignores them). -/
def toSimpleGraph (g : Graph) : SimpleGraph ℕ where
  Adj a b := a ≠ b ∧ rawAdj g a b
  symm := by
    intro a b h
    refine ⟨Ne.symm h.1, ?_⟩
    obtain ⟨e, he, hor⟩ := h.2
    exact ⟨e, he, hor.symm⟩
  loopless := by intro a h; exact h.1 rfl

/-- `e` is the undirected edge `{a, b}` (in either orientation). -/
def sameEdge (e : ℕ × ℕ) (a b : ℕ) : Prop :=
  (e.1 = a ∧ e.2 = b) ∨ (e.1 = b ∧ e.2 = a)

/-- The invariant maintained by the BFS worklist loop: the distance map holds
exactly the discovered nodes, each with its true shortest-path distance; the
queue lists the discovered-but-unprocessed nodes, spanning at most two
consecutive BFS levels; processed nodes have all neighbors discovered; and
every reachable node at most as far as the queue head is already discovered. -/
structure BfsInv (g : Graph) (start : ℕ) (dist : List (ℕ × ℕ)) (queue : List ℕ) : Prop where
  nodupKeys : (dist.map Prod.fst).Nodup
  start_mem : start ∈ dist.map Prod.fst
  queue_sub : ∀ x ∈ queue, x ∈ dist.map Prod.fst
  vals : ∀ p ∈ dist, (toSimpleGraph g).Reachable start p.1 ∧
    p.2 = (toSimpleGraph g).dist start p.1
  keys_bound : ∀ k ∈ dist.map Prod.fst, k = start ∨ ∃ e ∈ g.edges, k = e.1 ∨ k = e.2
  processed_closed : ∀ k ∈ dist.map Prod.fst, k ∉ queue →
    ∀ x ∈ g.neighbors k, x ∈ dist.map Prod.fst
  levels : ∃ dl q1 q2, queue = q1 ++ q2 ∧
    (∀ x ∈ q1, (toSimpleGraph g).dist start x = dl) ∧
    (∀ x ∈ q2, (toSimpleGraph g).dist start x = dl + 1)
  frontier : ∀ h t, queue.head? = some h → (toSimpleGraph g).Reachable start t →
    (toSimpleGraph g).dist start t ≤ (toSimpleGraph g).dist start h →
    t ∈ dist.map Prod.fst

/-- The set of nodes reachable from `s`, realized as the key set of the BFS
result. -/
def reachFinset (g : Graph) (s : ℕ) : Finset ℕ :=
  ((bfs_distances g s).map Prod.fst).toFinset



/-- The date stored at node index `i`. -/
def dateAt (nodes : List GNode) (i : ℕ) : Option NaiveDate :=
  (nodes.get? i).map Prod.fst

/-- The identity-level edge relation of a graph: some stored edge joins the
two given `(date, location)` identities, in either orientation. -/
def hasEdgeBetween (g : Graph) (u v : GNode) : Prop :=
  ∃ e ∈ g.edges, (g.nodes.get? e.1 = some u ∧ g.nodes.get? e.2 = some v) ∨
    (g.nodes.get? e.1 = some v ∧ g.nodes.get? e.2 = some u)

section BuilderLemmas

lemma foldl_insertAbsent_mem {α : Type} [DecidableEq α] (l : List α) :
    ∀ (acc : List α) (x : α), x ∈ l.foldl insertAbsent acc ↔ x ∈ acc ∨ x ∈ l := by
  induction l with
  | nil => simp
  | cons a t ih =>
    intro acc x
    simp only [List.foldl_cons, insertAbsent]
    by_cases ha : a ∈ acc
    · rw [if_pos ha, ih]
      simp only [List.mem_cons]
      constructor
      · rintro (h | h)
        · exact Or.inl h
        · exact Or.inr (Or.inr h)
      · rintro (h | rfl | h)
        · exact Or.inl h
        · exact Or.inl ha
        · exact Or.inr h
    · rw [if_neg ha, ih]
      simp only [List.mem_append, List.mem_singleton, List.mem_cons]
      tauto

lemma foldl_insertAbsent_nodup {α : Type} [DecidableEq α] (l : List α) :
    ∀ (acc : List α), acc.Nodup → (l.foldl insertAbsent acc).Nodup := by
  induction l with
  | nil => exact fun acc h => h
  | cons a t ih =>
    intro acc hacc
    simp only [List.foldl_cons, insertAbsent]
    by_cases ha : a ∈ acc
    · rw [if_pos ha]; exact ih acc hacc
    · rw [if_neg ha]
      refine ih _ ?_
      simp [List.nodup_append, hacc, ha]

lemma foldl_insertAbsent_fst_mem (l : List GNode) :
    ∀ (acc : List NaiveDate) (x : NaiveDate),
      x ∈ l.foldl (fun ds n => insertAbsent ds n.1) acc ↔ x ∈ acc ∨ ∃ e ∈ l, e.1 = x := by
  induction l with
  | nil => simp
  | cons a t ih =>
    intro acc x
    simp only [List.foldl_cons]
    by_cases ha : a.1 ∈ acc
    · rw [show insertAbsent acc a.1 = acc from if_pos ha, ih]
      simp only [List.mem_cons]
      constructor
      · rintro (h | ⟨e, he, hx⟩)
        · exact Or.inl h
        · exact Or.inr ⟨e, Or.inr he, hx⟩
      · rintro (h | ⟨e, (rfl | he), hx⟩)
        · exact Or.inl h
        · exact Or.inl (hx ▸ ha)
        · exact Or.inr ⟨e, he, hx⟩
    · rw [show insertAbsent acc a.1 = acc ++ [a.1] from if_neg ha, ih]
      simp only [List.mem_append, List.mem_singleton, List.mem_cons]
      aesop

lemma mem_addNodes (entries : List GNode) (u : GNode) :
    u ∈ addNodes entries ↔ u ∈ entries := by
  have h := foldl_insertAbsent_mem entries [] u
  simpa [addNodes] using h

lemma addNodes_nodup (entries : List GNode) : (addNodes entries).Nodup :=
  foldl_insertAbsent_nodup entries [] List.nodup_nil

lemma mem_datesOf (nodes : List GNode) (d : NaiveDate) :
    d ∈ datesOf nodes ↔ ∃ x ∈ nodes, x.1 = d := by
  have h := foldl_insertAbsent_fst_mem nodes [] d
  simpa [datesOf] using h

lemma mem_dayGroup (nodes : List GNode) (d : NaiveDate) (i : ℕ) :
    i ∈ dayGroup nodes d ↔ i < nodes.length ∧ dateAt nodes i = some d := by
  unfold dayGroup dateAt
  simp [List.mem_filter, List.mem_range]

lemma dayGroup_pairwise (nodes : List GNode) (d : NaiveDate) :
    (dayGroup nodes d).Pairwise (· < ·) :=
  (List.pairwise_lt_range nodes.length).filter _

lemma mem_tupleCombinations (l : List ℕ) (hl : l.Pairwise (· < ·)) (a b : ℕ) :
    (a, b) ∈ tupleCombinations l ↔ a ∈ l ∧ b ∈ l ∧ a < b := by
  induction l with
  | nil => simp [tupleCombinations]
  | cons c cs ih =>
    have hc : ∀ x ∈ cs, c < x := fun x hx => List.rel_of_pairwise_cons hl hx
    have ih' := ih (List.Pairwise.of_cons hl)
    simp only [tupleCombinations, List.mem_append, List.mem_map, ih', List.mem_cons]
    constructor
    · rintro (⟨y, hy, heq⟩ | ⟨ha, hb, hab⟩)
      · simp only [Prod.mk.injEq] at heq
        obtain ⟨rfl, rfl⟩ := heq
        exact ⟨Or.inl rfl, Or.inr hy, hc _ hy⟩
      · exact ⟨Or.inr ha, Or.inr hb, hab⟩
    · rintro ⟨(rfl | ha), (rfl | hb), hab⟩
      · exact absurd hab (lt_irrefl _)
      · exact Or.inl ⟨b, hb, rfl⟩
      · exact absurd (hc _ ha) (Nat.lt_asymm hab)
      · exact Or.inr ⟨ha, hb, hab⟩

/-- The candidate stream visited by the builder's nested loops is exactly the
set of ascending same-date index pairs. -/
lemma mem_edgeStream (nodes : List GNode) (a b : ℕ) :
    (a, b) ∈ edgeStream nodes ↔
      a < b ∧ b < nodes.length ∧ ∃ d, dateAt nodes a = some d ∧ dateAt nodes b = some d := by
  unfold edgeStream
  rw [List.mem_flatMap]
  constructor
  · rintro ⟨d, _, hm⟩
    rw [mem_tupleCombinations _ (dayGroup_pairwise nodes d)] at hm
    obtain ⟨ha, hb, hab⟩ := hm
    rw [mem_dayGroup] at ha hb
    exact ⟨hab, hb.1, d, ha.2, hb.2⟩
  · rintro ⟨hab, hb, d, hda, hdb⟩
    obtain ⟨x, hx, hxd⟩ := Option.map_eq_some'.mp hda
    refine ⟨d, ?_, ?_⟩
    · rw [mem_datesOf]
      exact ⟨x, List.get?_mem hx, hxd⟩
    · rw [mem_tupleCombinations _ (dayGroup_pairwise nodes d), mem_dayGroup, mem_dayGroup]
      exact ⟨⟨Nat.lt_trans hab hb, hda⟩, ⟨hb, hdb⟩, hab⟩

end BuilderLemmas

section EdgeFoldLemmas

lemma sameEdge_comm (e x : ℕ × ℕ) : sameEdge e x.1 x.2 ↔ sameEdge x e.1 e.2 := by
  unfold sameEdge; constructor
  · rintro (⟨h1, h2⟩ | ⟨h1, h2⟩)
    · exact Or.inl ⟨h1.symm, h2.symm⟩
    · exact Or.inr ⟨h2.symm, h1.symm⟩
  · rintro (⟨h1, h2⟩ | ⟨h1, h2⟩)
    · exact Or.inl ⟨h1.symm, h2.symm⟩
    · exact Or.inr ⟨h2.symm, h1.symm⟩

lemma findEdge_iff (es : List (ℕ × ℕ)) (a b : ℕ) :
    findEdge es a b = true ↔ ∃ e ∈ es, sameEdge e a b := by
  unfold findEdge sameEdge
  simp [List.any_eq_true]

lemma foldl_addEdge_extends (l : List (ℕ × ℕ)) :
    ∀ acc, ∃ t, l.foldl addEdge acc = acc ++ t := by
  induction l with
  | nil => exact fun acc => ⟨[], by simp⟩
  | cons x xs ih =>
    intro acc
    simp only [List.foldl_cons, addEdge]
    by_cases h : findEdge acc x.1 x.2
    · rw [if_pos h]; exact ih acc
    · rw [if_neg h]
      obtain ⟨t, ht⟩ := ih (acc ++ [x])
      exact ⟨[x] ++ t, by rw [ht, List.append_assoc]⟩

lemma mem_foldl_addEdge (l : List (ℕ × ℕ)) :
    ∀ acc x, x ∈ l.foldl addEdge acc → x ∈ acc ∨ x ∈ l := by
  induction l with
  | nil => exact fun acc x h => Or.inl h
  | cons y ys ih =>
    intro acc x hx
    simp only [List.foldl_cons, addEdge] at hx
    by_cases h : findEdge acc y.1 y.2
    · rw [if_pos h] at hx
      rcases ih acc x hx with h' | h'
      · exact Or.inl h'
      · exact Or.inr (List.mem_cons_of_mem _ h')
    · rw [if_neg h] at hx
      rcases ih (acc ++ [y]) x hx with h' | h'
      · rcases List.mem_append.mp h' with h'' | h''
        · exact Or.inl h''
        · exact Or.inr (List.mem_cons.mpr (Or.inl (List.mem_singleton.mp h'')))
      · exact Or.inr (List.mem_cons_of_mem _ h')

lemma findEdge_append_left (es t : List (ℕ × ℕ)) (a b : ℕ)
    (h : findEdge es a b = true) : findEdge (es ++ t) a b = true := by
  rw [findEdge_iff] at h ⊢
  obtain ⟨e, he, hs⟩ := h
  exact ⟨e, List.mem_append.mpr (Or.inl he), hs⟩

lemma findEdge_foldl_of_found (l : List (ℕ × ℕ)) :
    ∀ acc a b, findEdge acc a b = true → findEdge (l.foldl addEdge acc) a b = true := by
  induction l with
  | nil => exact fun acc a b h => h
  | cons y ys ih =>
    intro acc a b h
    simp only [List.foldl_cons, addEdge]
    by_cases hy : findEdge acc y.1 y.2
    · rw [if_pos hy]; exact ih acc a b h
    · rw [if_neg hy]; exact ih (acc ++ [y]) a b (findEdge_append_left _ _ _ _ h)

lemma findEdge_foldl_of_mem (l : List (ℕ × ℕ)) :
    ∀ acc x, x ∈ l → findEdge (l.foldl addEdge acc) x.1 x.2 = true := by
  induction l with
  | nil => intro acc x h; exact absurd h (List.not_mem_nil x)
  | cons y ys ih =>
    intro acc x hx
    simp only [List.foldl_cons, addEdge]
    rcases List.mem_cons.mp hx with rfl | hx'
    · by_cases hy : findEdge acc x.1 x.2
      · rw [if_pos hy]; exact findEdge_foldl_of_found ys acc x.1 x.2 hy
      · rw [if_neg hy]
        refine findEdge_foldl_of_found ys _ x.1 x.2 ?_
        rw [findEdge_iff]
        exact ⟨x, List.mem_append.mpr (Or.inr (List.mem_singleton.mpr rfl)),
          Or.inl ⟨rfl, rfl⟩⟩
    · by_cases hy : findEdge acc y.1 y.2
      · rw [if_pos hy]; exact ih acc x hx'
      · rw [if_neg hy]; exact ih (acc ++ [y]) x hx'

lemma foldl_addEdge_pairwise (l : List (ℕ × ℕ)) :
    ∀ acc, acc.Pairwise (fun e e' => ¬ sameEdge e' e.1 e.2) →
      (l.foldl addEdge acc).Pairwise (fun e e' => ¬ sameEdge e' e.1 e.2) := by
  induction l with
  | nil => exact fun acc h => h
  | cons y ys ih =>
    intro acc hacc
    simp only [List.foldl_cons, addEdge]
    by_cases hy : findEdge acc y.1 y.2
    · rw [if_pos hy]; exact ih acc hacc
    · rw [if_neg hy]
      refine ih _ ?_
      rw [List.pairwise_append]
      refine ⟨hacc, List.pairwise_singleton _ _, ?_⟩
      intro e he y' hy'
      rw [List.mem_singleton] at hy'
      subst hy'
      intro hsame
      rw [findEdge_iff] at hy
      exact hy ⟨e, he, (sameEdge_comm e y').mpr hsame⟩

lemma mem_build_edges (nodes : List GNode) (x : ℕ × ℕ) :
    x ∈ build_edges nodes → x ∈ edgeStream nodes := by
  intro h
  rcases mem_foldl_addEdge _ _ _ h with h' | h'
  · exact absurd h' (List.not_mem_nil x)
  · exact h'

lemma build_edges_complete (nodes : List GNode) (x : ℕ × ℕ) (hx : x ∈ edgeStream nodes) :
    findEdge (build_edges nodes) x.1 x.2 = true :=
  findEdge_foldl_of_mem _ _ _ hx

lemma build_edges_pairwise (nodes : List GNode) :
    (build_edges nodes).Pairwise (fun e e' => ¬ sameEdge e' e.1 e.2) :=
  foldl_addEdge_pairwise _ _ List.Pairwise.nil

end EdgeFoldLemmas

section BuildGraphLemmas

lemma build_graph_nodes (entries : List GNode) :
    (build_graph entries).nodes = addNodes entries := rfl

lemma build_graph_edges (entries : List GNode) :
    (build_graph entries).edges = build_edges (addNodes entries) := rfl

lemma hasEdgeBetween_comm (g : Graph) (u v : GNode) :
    hasEdgeBetween g u v ↔ hasEdgeBetween g v u := by
  unfold hasEdgeBetween
  constructor
  · rintro ⟨e, he, hor⟩; exact ⟨e, he, hor.symm⟩
  · rintro ⟨e, he, hor⟩; exact ⟨e, he, hor.symm⟩

/-- Every stored edge of the builder's output is an ascending pair of valid
node indices whose two endpoints carry the same date. -/
lemma build_edges_props (nodes : List GNode) (e : ℕ × ℕ) (he : e ∈ build_edges nodes) :
    e.1 < e.2 ∧ e.2 < nodes.length ∧
      ∃ d, dateAt nodes e.1 = some d ∧ dateAt nodes e.2 = some d := by
  have hs := mem_build_edges nodes e he
  have h := (mem_edgeStream nodes e.1 e.2).mp (by rwa [Prod.mk.eta])
  exact h

lemma dateAt_eq_fst (nodes : List GNode) (i : ℕ) (u : GNode)
    (h : nodes.get? i = some u) : dateAt nodes i = some u.1 := by
  unfold dateAt; rw [h]; rfl

lemma hasEdgeBetween_of_indices (entries : List GNode) (u v : GNode) (i j : ℕ)
    (hij : i < j) (hu : (addNodes entries).get? i = some u)
    (hv : (addNodes entries).get? j = some v) (hd : u.1 = v.1) :
    hasEdgeBetween (build_graph entries) u v := by
  have hjlen : j < (addNodes entries).length := by
    obtain ⟨h, _⟩ := List.get?_eq_some.mp hv
    exact h
  have hstream : (i, j) ∈ edgeStream (addNodes entries) := by
    rw [mem_edgeStream]
    exact ⟨hij, hjlen, u.1, dateAt_eq_fst _ _ _ hu, hd ▸ dateAt_eq_fst _ _ _ hv⟩
  have hfound := build_edges_complete (addNodes entries) (i, j) hstream
  rw [findEdge_iff] at hfound
  obtain ⟨e, he, hsame⟩ := hfound
  rcases hsame with ⟨h1, h2⟩ | ⟨h1, h2⟩
  · exact ⟨e, he, Or.inl ⟨h1 ▸ hu, h2 ▸ hv⟩⟩
  · exact ⟨e, he, Or.inr ⟨h1 ▸ hv, h2 ▸ hu⟩⟩

/-- Characterization of the builder's edge set at the identity level: exactly
the pairs of distinct observed identities sharing a date. -/
lemma hasEdgeBetween_build_graph (entries : List GNode) (u v : GNode) :
    hasEdgeBetween (build_graph entries) u v ↔
      u ∈ entries ∧ v ∈ entries ∧ u ≠ v ∧ u.1 = v.1 := by
  constructor
  · rintro ⟨e, he, hor⟩
    rw [build_graph_nodes] at hor
    rw [build_graph_edges] at he
    obtain ⟨hlt, hlen, d, hda, hdb⟩ := build_edges_props _ e he
    have hne : e.1 ≠ e.2 := Nat.ne_of_lt hlt
    have h1len : e.1 < (addNodes entries).length := Nat.lt_trans hlt hlen
    rcases hor with ⟨hu, hv⟩ | ⟨hv, hu⟩
    · refine ⟨(mem_addNodes _ _).mp (List.get?_mem hu),
        (mem_addNodes _ _).mp (List.get?_mem hv), ?_, ?_⟩
      · intro huv
        exact hne (List.get?_inj h1len (addNodes_nodup entries) (by rw [hu, hv, huv]))
      · have h1 := dateAt_eq_fst _ _ _ hu
        have h2 := dateAt_eq_fst _ _ _ hv
        rw [h1] at hda; rw [h2] at hdb
        rw [Option.some_inj.mp hda, Option.some_inj.mp hdb]
    · refine ⟨(mem_addNodes _ _).mp (List.get?_mem hu),
        (mem_addNodes _ _).mp (List.get?_mem hv), ?_, ?_⟩
      · intro huv
        exact hne (List.get?_inj h1len (addNodes_nodup entries) (by rw [hu, hv, huv]))
      · have h1 := dateAt_eq_fst _ _ _ hu
        have h2 := dateAt_eq_fst _ _ _ hv
        rw [h1] at hdb; rw [h2] at hda
        rw [Option.some_inj.mp hda, Option.some_inj.mp hdb]
  · rintro ⟨hu, hv, hne, hd⟩
    obtain ⟨i, hi⟩ := List.mem_iff_get?.mp ((mem_addNodes entries u).mpr hu)
    obtain ⟨j, hj⟩ := List.mem_iff_get?.mp ((mem_addNodes entries v).mpr hv)
    have hij : i ≠ j := by
      intro h
      rw [h, hj] at hi
      exact hne (Option.some_inj.mp hi).symm
    rcases Nat.lt_or_ge i j with h | h
    · exact hasEdgeBetween_of_indices entries u v i j h hi hj hd
    · have hji : j < i := Nat.lt_of_le_of_ne h (Ne.symm hij)
      rw [hasEdgeBetween_comm]
      exact hasEdgeBetween_of_indices entries v u j i hji hj hi hd.symm

end BuildGraphLemmas

/-- **C4.** Building a graph from exactly the records `(2025-04-01, A)`,
`(2025-04-01, B)`, `(2025-04-02, A)` yields exactly 3 nodes and exactly 1
edge: node identity is the `(date, location)` pair, so the `2025-04-02`
occurrence of `A` is a distinct node (index 2) with no incident edges, and
the single edge joins `(2025-04-01, A)` (index 0) and `(2025-04-01, B)`
(index 1). -/
theorem build_graph_three_records :
    (build_graph [(⟨2025, 4, 1⟩, "A"), (⟨2025, 4, 1⟩, "B"), (⟨2025, 4, 2⟩, "A")]).nodes =
      [(⟨2025, 4, 1⟩, "A"), (⟨2025, 4, 1⟩, "B"), (⟨2025, 4, 2⟩, "A")] ∧
    (build_graph [(⟨2025, 4, 1⟩, "A"), (⟨2025, 4, 1⟩, "B"), (⟨2025, 4, 2⟩, "A")]).edges =
      [(0, 1)] ∧
    (build_graph [(⟨2025, 4, 1⟩, "A"), (⟨2025, 4, 1⟩, "B"), (⟨2025, 4, 2⟩, "A")]).node_count
      = 3 ∧
    (build_graph [(⟨2025, 4, 1⟩, "A"), (⟨2025, 4, 1⟩, "B"), (⟨2025, 4, 2⟩, "A")]).edge_count
      = 1 ∧
    (build_graph [(⟨2025, 4, 1⟩, "A"), (⟨2025, 4, 1⟩, "B"),
      (⟨2025, 4, 2⟩, "A")]).neighbors 2 = [] := by
  refine ⟨?_, ?_, ?_, ?_, ?_⟩ <;> rfl

/-- **C6.** Every graph produced by `build_graph` satisfies, for every input
record sequence: no two nodes carry the same `(date, location)` identity
(the node list has no duplicates); no edge joins a node to itself; the two
endpoints of every edge carry equal date components; and at most one edge
exists between any pair of nodes (no two stored edges coincide as unordered
pairs). -/
theorem build_graph_invariants (entries : List GNode) :
    (build_graph entries).nodes.Nodup ∧
    (∀ e ∈ (build_graph entries).edges, e.1 ≠ e.2) ∧
    (∀ e ∈ (build_graph entries).edges, ∃ u v,
      (build_graph entries).nodes.get? e.1 = some u ∧
      (build_graph entries).nodes.get? e.2 = some v ∧ u.1 = v.1) ∧
    (build_graph entries).edges.Pairwise (fun e e' => ¬ sameEdge e' e.1 e.2) := by
  refine ⟨addNodes_nodup entries, ?_, ?_, ?_⟩
  · intro e he
    rw [build_graph_edges] at he
    exact Nat.ne_of_lt (build_edges_props _ e he).1
  · intro e he
    rw [build_graph_edges] at he
    obtain ⟨hlt, hlen, d, hda, hdb⟩ := build_edges_props _ e he
    obtain ⟨u, hu, hud⟩ := Option.map_eq_some'.mp hda
    obtain ⟨v, hv, hvd⟩ := Option.map_eq_some'.mp hdb
    exact ⟨u, v, hu, hv, by rw [hud, hvd]⟩
  · rw [build_graph_edges]
    exact build_edges_pairwise _

/-- Witness for `build_graph_invariants`: instantiated on a concrete two
record input whose graph stores the single edge `(0, 1)`. -/
theorem build_graph_invariants_witness :
    (build_graph [(⟨2025, 4, 1⟩, "A"), (⟨2025, 4, 1⟩, "B")]).nodes.Nodup ∧
    (0, 1) ∈ (build_graph [(⟨2025, 4, 1⟩, "A"), (⟨2025, 4, 1⟩, "B")]).edges ∧
    ((0, 1) : ℕ × ℕ).1 ≠ ((0, 1) : ℕ × ℕ).2 ∧
    (∃ u v, (build_graph [(⟨2025, 4, 1⟩, "A"), (⟨2025, 4, 1⟩, "B")]).nodes.get? 0 = some u ∧
      (build_graph [(⟨2025, 4, 1⟩, "A"), (⟨2025, 4, 1⟩, "B")]).nodes.get? 1 = some v ∧
      u.1 = v.1) :=
  ⟨(build_graph_invariants _).1, by decide,
    (build_graph_invariants [(⟨2025, 4, 1⟩, "A"), (⟨2025, 4, 1⟩, "B")]).2.1 (0, 1) (by decide),
    (build_graph_invariants [(⟨2025, 4, 1⟩, "A"), (⟨2025, 4, 1⟩, "B")]).2.2.1 (0, 1)
      (by decide)⟩

/-- **C9.** The Graph Builder is order-insensitive: permuting the input
record sequence yields a graph with the same node set (as identities) and
the same edge set (as unordered identity pairs), even though internal node
indices may differ. -/
theorem build_graph_perm_invariant (entries entries' : List GNode)
    (hp : entries.Perm entries') :
    (∀ u, u ∈ (build_graph entries).nodes ↔ u ∈ (build_graph entries').nodes) ∧
    (∀ u v, hasEdgeBetween (build_graph entries) u v ↔
      hasEdgeBetween (build_graph entries') u v) := by
  constructor
  · intro u
    rw [build_graph_nodes, build_graph_nodes, mem_addNodes, mem_addNodes]
    exact hp.mem_iff
  · intro u v
    rw [hasEdgeBetween_build_graph, hasEdgeBetween_build_graph,
      hp.mem_iff (a := u), hp.mem_iff (a := v)]

/-- Witness for `build_graph_perm_invariant`: a concrete permuted pair of
record lists, instantiated at the identities of the shared edge. -/
theorem build_graph_perm_invariant_witness :
    ((⟨2025, 4, 1⟩, "A") ∈
        (build_graph [(⟨2025, 4, 1⟩, "A"), (⟨2025, 4, 1⟩, "B")]).nodes ↔
      (⟨2025, 4, 1⟩, "A") ∈
        (build_graph [(⟨2025, 4, 1⟩, "B"), (⟨2025, 4, 1⟩, "A")]).nodes) ∧
    (hasEdgeBetween (build_graph [(⟨2025, 4, 1⟩, "A"), (⟨2025, 4, 1⟩, "B")])
        (⟨2025, 4, 1⟩, "A") (⟨2025, 4, 1⟩, "B") ↔
      hasEdgeBetween (build_graph [(⟨2025, 4, 1⟩, "B"), (⟨2025, 4, 1⟩, "A")])
        (⟨2025, 4, 1⟩, "A") (⟨2025, 4, 1⟩, "B")) :=
  ⟨(build_graph_perm_invariant _ _ (by decide)).1 _,
    (build_graph_perm_invariant [(⟨2025, 4, 1⟩, "A"), (⟨2025, 4, 1⟩, "B")]
      [(⟨2025, 4, 1⟩, "B"), (⟨2025, 4, 1⟩, "A")] (by decide)).2 _ _⟩

section AssocLemmas

lemma lookupD_isSome_iff (m : List (ℕ × ℕ)) (k : ℕ) :
    (lookupD m k).isSome = true ↔ k ∈ m.map Prod.fst := by
  induction m with
  | nil => simp [lookupD]
  | cons p rest ih =>
    obtain ⟨k', v⟩ := p
    by_cases h : k' = k
    · subst h
      simp [lookupD]
    · simp only [lookupD, if_neg h, List.map_cons, List.mem_cons, ih]
      constructor
      · exact fun hm => Or.inr hm
      · rintro (rfl | hm)
        · exact absurd rfl h
        · exact hm

lemma lookupD_mem (m : List (ℕ × ℕ)) (k v : ℕ) (h : lookupD m k = some v) : (k, v) ∈ m := by
  induction m with
  | nil => simp [lookupD] at h
  | cons p rest ih =>
    obtain ⟨k', v'⟩ := p
    by_cases hk : k' = k
    · subst hk
      rw [lookupD, if_pos rfl] at h
      exact List.mem_cons.mpr (Or.inl (by rw [Option.some_inj.mp h]))
    · rw [lookupD, if_neg hk] at h
      exact List.mem_cons_of_mem _ (ih h)

lemma lookupD_append (m m' : List (ℕ × ℕ)) (k : ℕ) :
    lookupD (m ++ m') k = ((lookupD m k).or (lookupD m' k)) := by
  induction m with
  | nil => simp [lookupD]
  | cons p rest ih =>
    obtain ⟨k', v'⟩ := p
    by_cases hk : k' = k
    · subst hk
      simp [lookupD]
    · simp [lookupD, if_neg hk, ih]

lemma mem_lookupD (m : List (ℕ × ℕ)) (k v : ℕ) (hnd : (m.map Prod.fst).Nodup)
    (h : (k, v) ∈ m) : lookupD m k = some v := by
  induction m with
  | nil => simp at h
  | cons p rest ih =>
    obtain ⟨k', v'⟩ := p
    rw [List.map_cons, List.nodup_cons] at hnd
    rcases List.mem_cons.mp h with heq | hm
    · injection heq with h1 h2
      rw [lookupD, if_pos h1.symm, h2]
    · have hk : k' ≠ k := by
        intro hk
        subst hk
        exact hnd.1 (List.mem_map.mpr ⟨(k', v), hm, rfl⟩)
      rw [lookupD, if_neg hk]
      exact ih hnd.2 hm

end AssocLemmas

section NeighborLemmas

lemma mem_neighbors (g : Graph) (v x : ℕ) :
    x ∈ g.neighbors v ↔ rawAdj g v x := by
  unfold Graph.neighbors rawAdj
  induction g.edges with
  | nil => simp
  | cons e es ih =>
    simp only [List.foldr_cons, List.mem_cons]
    by_cases h1 : e.1 = v
    · rw [if_pos h1]
      simp only [List.mem_cons, ih]
      constructor
      · rintro (rfl | h)
        · exact ⟨e, Or.inl rfl, Or.inl ⟨h1, rfl⟩⟩
        · obtain ⟨e', he', ho⟩ := h
          exact ⟨e', Or.inr he', ho⟩
      · rintro ⟨e', (rfl | he'), ho⟩
        · rcases ho with ⟨_, h2⟩ | ⟨h2, h3⟩
          · exact Or.inl h2.symm
          · exact Or.inl (h2 ▸ h1.symm ▸ h3.symm ▸ rfl)
        · exact Or.inr ⟨e', he', ho⟩
    · by_cases h2 : e.2 = v
      · rw [if_neg h1, if_pos h2]
        simp only [List.mem_cons, ih]
        constructor
        · rintro (rfl | h)
          · exact ⟨e, Or.inl rfl, Or.inr ⟨rfl, h2⟩⟩
          · obtain ⟨e', he', ho⟩ := h
            exact ⟨e', Or.inr he', ho⟩
        · rintro ⟨e', (rfl | he'), ho⟩
          · rcases ho with ⟨h3, h4⟩ | ⟨h3, h4⟩
            · exact absurd h3 h1
            · exact Or.inl h3.symm
          · exact Or.inr ⟨e', he', ho⟩
      · rw [if_neg h1, if_neg h2, ih]
        constructor
        · rintro ⟨e', he', ho⟩
          exact ⟨e', Or.inr he', ho⟩
        · rintro ⟨e', (rfl | he'), ho⟩
          · rcases ho with ⟨h3, _⟩ | ⟨_, h4⟩
            · exact absurd h3 h1
            · exact absurd h4 h2
          · exact ⟨e', he', ho⟩

lemma toSimpleGraph_adj (g : Graph) (a b : ℕ) :
    (toSimpleGraph g).Adj a b ↔ a ≠ b ∧ rawAdj g a b := Iff.rfl

end NeighborLemmas

section DistLemmas

lemma dist_le_succ_of_adj (g : Graph) {s p t : ℕ}
    (h : (toSimpleGraph g).Adj p t) (hr : (toSimpleGraph g).Reachable s p) :
    (toSimpleGraph g).dist s t ≤ (toSimpleGraph g).dist s p + 1 := by
  obtain ⟨w, hw⟩ := hr.exists_walk_length_eq_dist
  have := SimpleGraph.dist_le (w.concat h)
  rwa [SimpleGraph.Walk.length_concat, hw] at this

lemma exists_pred_of_dist (g : Graph) {s t : ℕ} (hr : (toSimpleGraph g).Reachable s t)
    {d : ℕ} (hd : (toSimpleGraph g).dist s t = d + 1) :
    ∃ p, (toSimpleGraph g).Adj p t ∧ (toSimpleGraph g).Reachable s p ∧
      (toSimpleGraph g).dist s p = d := by
  obtain ⟨w, hw⟩ := hr.symm.exists_walk_length_eq_dist
  rw [SimpleGraph.dist_comm, hd] at hw
  cases w with
  | nil => simp at hw
  | cons ha p =>
    rename_i x
    rw [SimpleGraph.Walk.length_cons, Nat.add_right_cancel_iff] at hw
    have hrx : (toSimpleGraph g).Reachable s x := ⟨p.reverse⟩
    have hle : (toSimpleGraph g).dist s x ≤ d := by
      have := SimpleGraph.dist_le p.reverse
      rwa [SimpleGraph.Walk.length_reverse, hw] at this
    have hge : d ≤ (toSimpleGraph g).dist s x := by
      have h2 := dist_le_succ_of_adj g ha.symm hrx
      omega
    exact ⟨x, ha.symm, hrx, le_antisymm hle hge⟩

end DistLemmas

/-- Normalized two-level decomposition of a nonempty queue: the head's level
leads, followed by same-level nodes, followed by next-level nodes. -/
lemma levels_head {g : Graph} {start : ℕ} {dist : List (ℕ × ℕ)} {node : ℕ} {rest : List ℕ}
    (inv : BfsInv g start dist (node :: rest)) :
    ∃ t1 q2, rest = t1 ++ q2 ∧
      (∀ x ∈ t1, (toSimpleGraph g).dist start x = (toSimpleGraph g).dist start node) ∧
      (∀ x ∈ q2, (toSimpleGraph g).dist start x = (toSimpleGraph g).dist start node + 1) := by
  obtain ⟨dl, q1, q2, heq, h1, h2⟩ := inv.levels
  cases q1 with
  | nil =>
    rw [List.nil_append] at heq
    have hnode : (toSimpleGraph g).dist start node = dl + 1 :=
      h2 node (heq ▸ List.mem_cons_self _ _)
    refine ⟨rest, [], by simp, ?_, by simp⟩
    intro x hx
    rw [hnode]
    exact h2 x (heq ▸ List.mem_cons_of_mem _ hx)
  | cons a t1 =>
    rw [List.cons_append] at heq
    injection heq with ha ht
    subst ha
    have hnode : (toSimpleGraph g).dist start node = dl := h1 node (List.mem_cons_self _ _)
    refine ⟨t1, q2, ht, ?_, ?_⟩
    · intro x hx
      rw [hnode]
      exact h1 x (List.mem_cons_of_mem _ hx)
    · intro x hx
      rw [hnode]
      exact h2 x hx

/-- Effect of the BFS inner loop over a neighbor list: some sublist `fresh` of
previously-undiscovered neighbors is appended to the map at level `d + 1` and
to the queue, and every neighbor ends up discovered. -/
lemma bfsFold_spec (d : ℕ) (ns : List ℕ) :
    ∀ (dist : List (ℕ × ℕ)) (q : List ℕ),
      ∃ fresh : List ℕ,
        ns.foldl (bfsStep d) (dist, q) =
          (dist ++ fresh.map (fun x => (x, d + 1)), q ++ fresh) ∧
        fresh.Nodup ∧
        (∀ x ∈ fresh, x ∈ ns ∧ x ∉ dist.map Prod.fst) ∧
        (∀ x ∈ ns, x ∈ dist.map Prod.fst ∨ x ∈ fresh) := by
  induction ns with
  | nil =>
    intro dist q
    exact ⟨[], by simp, List.nodup_nil, by simp, by simp⟩
  | cons n rest ih =>
    intro dist q
    simp only [List.foldl_cons, bfsStep]
    by_cases h : (lookupD dist n).isSome = true
    · rw [if_pos h]
      obtain ⟨fresh, heq, hnd, hprop, hcov⟩ := ih dist q
      refine ⟨fresh, heq, hnd, ?_, ?_⟩
      · intro x hx
        obtain ⟨h1, h2⟩ := hprop x hx
        exact ⟨List.mem_cons_of_mem _ h1, h2⟩
      · intro x hx
        rcases List.mem_cons.mp hx with rfl | hx'
        · exact Or.inl ((lookupD_isSome_iff dist x).mp h)
        · exact hcov x hx'
    · rw [if_neg h]
      obtain ⟨fresh, heq, hnd, hprop, hcov⟩ := ih (dist ++ [(n, d + 1)]) (q ++ [n])
      refine ⟨n :: fresh, ?_, ?_, ?_, ?_⟩
      · rw [heq, List.map_cons]
        rw [List.append_assoc, List.append_assoc]
        rfl
      · refine List.nodup_cons.mpr ⟨?_, hnd⟩
        intro hn
        have h2 := (hprop n hn).2
        rw [List.map_append] at h2
        exact h2 (List.mem_append.mpr (Or.inr (by simp)))
      · intro x hx
        rcases List.mem_cons.mp hx with rfl | hx'
        · exact ⟨List.mem_cons_self _ _,
            fun hm => h ((lookupD_isSome_iff dist x).mpr hm)⟩
        · obtain ⟨h1, h2⟩ := hprop x hx'
          refine ⟨List.mem_cons_of_mem _ h1, ?_⟩
          intro hm
          rw [List.map_append] at h2
          exact h2 (List.mem_append.mpr (Or.inl hm))
      · intro x hx
        rcases List.mem_cons.mp hx with rfl | hx'
        · exact Or.inr (List.mem_cons_self _ _)
        · rcases hcov x hx' with hm | hf
          · rw [List.map_append] at hm
            rcases List.mem_append.mp hm with hm' | hm'
            · exact Or.inl hm'
            · simp only [List.map_cons, List.map_nil, List.mem_singleton] at hm'
              exact Or.inr (hm' ▸ List.mem_cons_self _ _)
          · exact Or.inr (List.mem_cons_of_mem _ hf)

lemma map_fst_pair (l : List ℕ) (c : ℕ) :
    (l.map (fun x => (x, c))).map Prod.fst = l := by
  induction l with
  | nil => rfl
  | cons y ys ih => simp [ih]


/-- Processing the queue head preserves the BFS invariant: the freshly
discovered neighbors join the map at the next level and the queue tail. -/
lemma bfs_step_preserves (g : Graph) (start node : ℕ) (rest : List ℕ)
    (dist : List (ℕ × ℕ)) (inv : BfsInv g start dist (node :: rest)) :
    ∃ fresh : List ℕ,
      (g.neighbors node).foldl (bfsStep ((lookupD dist node).getD 0)) (dist, rest) =
        (dist ++ fresh.map (fun x => (x, (toSimpleGraph g).dist start node + 1)),
          rest ++ fresh) ∧
      BfsInv g start
        (dist ++ fresh.map (fun x => (x, (toSimpleGraph g).dist start node + 1)))
        (rest ++ fresh) := by
  -- the popped node's stored distance is its true BFS level
  have hnodek : node ∈ dist.map Prod.fst := inv.queue_sub node (List.mem_cons_self _ _)
  have hlook : lookupD dist node = some ((toSimpleGraph g).dist start node) := by
    have hs : (lookupD dist node).isSome = true := (lookupD_isSome_iff dist node).mpr hnodek
    obtain ⟨v, hv⟩ := Option.isSome_iff_exists.mp hs
    have hmem := lookupD_mem dist node v hv
    have h2 : v = (toSimpleGraph g).dist start node := (inv.vals (node, v) hmem).2
    rw [hv, h2]
  have hgetD : (lookupD dist node).getD 0 = (toSimpleGraph g).dist start node := by
    rw [hlook]; rfl
  have hRnode : (toSimpleGraph g).Reachable start node := by
    obtain ⟨v, hv⟩ := Option.isSome_iff_exists.mp
      ((lookupD_isSome_iff dist node).mpr hnodek)
    exact (inv.vals (node, v) (lookupD_mem dist node v hv)).1
  -- run the inner fold
  obtain ⟨fresh, heq, hfnd, hfprop, hfcov⟩ :=
    bfsFold_spec ((toSimpleGraph g).dist start node) (g.neighbors node) dist rest
  rw [hgetD]
  -- facts about every freshly discovered node
  have hfadj : ∀ x ∈ fresh, (toSimpleGraph g).Adj node x := by
    intro x hx
    obtain ⟨hnb, hnk⟩ := hfprop x hx
    have hxne : node ≠ x := fun hxx => hnk (hxx ▸ hnodek)
    exact ⟨hxne, (mem_neighbors g node x).mp hnb⟩
  have hfreach : ∀ x ∈ fresh, (toSimpleGraph g).Reachable start x := fun x hx =>
    hRnode.trans (hfadj x hx).reachable
  have hfdist : ∀ x ∈ fresh,
      (toSimpleGraph g).dist start x = (toSimpleGraph g).dist start node + 1 := by
    intro x hx
    obtain ⟨hnb, hnk⟩ := hfprop x hx
    have hle : (toSimpleGraph g).dist start x ≤ (toSimpleGraph g).dist start node + 1 :=
      dist_le_succ_of_adj g (hfadj x hx) hRnode
    have hgt : ¬ (toSimpleGraph g).dist start x ≤ (toSimpleGraph g).dist start node := by
      intro hcon
      exact hnk (inv.frontier node x rfl (hfreach x hx) hcon)
    omega
  -- key-set decomposition of the new map
  have hkeys : (dist ++ fresh.map
        (fun x => (x, (toSimpleGraph g).dist start node + 1))).map Prod.fst =
      dist.map Prod.fst ++ fresh := by
    rw [List.map_append, map_fst_pair]
  refine ⟨fresh, heq, ?_⟩
  have hfreshkeys : ∀ x ∈ fresh, x ∉ dist.map Prod.fst := fun x hx => (hfprop x hx).2
  -- two-level decomposition of the old queue tail
  obtain ⟨t1, q2, hrest, ht1, hq2⟩ := levels_head inv
  constructor
  -- nodupKeys
  · rw [hkeys, List.nodup_append]
    exact ⟨inv.nodupKeys, hfnd, fun x hx hx' => hfreshkeys x hx' hx⟩
  -- start_mem
  · rw [hkeys]
    exact List.mem_append.mpr (Or.inl inv.start_mem)
  -- queue_sub
  · intro x hx
    rw [hkeys]
    rcases List.mem_append.mp hx with hx' | hx'
    · exact List.mem_append.mpr
        (Or.inl (inv.queue_sub x (List.mem_cons_of_mem _ hx')))
    · exact List.mem_append.mpr (Or.inr hx')
  -- vals
  · intro p hp
    rcases List.mem_append.mp hp with hp' | hp'
    · exact inv.vals p hp'
    · obtain ⟨x, hx, hxp⟩ := List.mem_map.mp hp'
      subst hxp
      exact ⟨hfreach x hx, (hfdist x hx).symm⟩
  -- keys_bound
  · intro k hk
    rw [hkeys] at hk
    rcases List.mem_append.mp hk with hk' | hk'
    · exact inv.keys_bound k hk'
    · obtain ⟨hnb, _⟩ := hfprop k hk'
      obtain ⟨e, he, ho⟩ := (mem_neighbors g node k).mp hnb
      rcases ho with ⟨_, h2⟩ | ⟨h1, _⟩
      · exact Or.inr ⟨e, he, Or.inr h2.symm⟩
      · exact Or.inr ⟨e, he, Or.inl h1.symm⟩
  -- processed_closed
  · intro k hk hkq x hx
    rw [hkeys] at hk ⊢
    have hkold : k ∈ dist.map Prod.fst := by
      rcases List.mem_append.mp hk with hk' | hk'
      · exact hk'
      · exact absurd (List.mem_append.mpr (Or.inr hk')) hkq
    by_cases hkn : k = node
    · subst hkn
      rcases hfcov x hx with hm | hm
      · exact List.mem_append.mpr (Or.inl hm)
      · exact List.mem_append.mpr (Or.inr hm)
    · have hkq' : k ∉ node :: rest := by
        intro hc
        rcases List.mem_cons.mp hc with rfl | hc'
        · exact hkn rfl
        · exact hkq (List.mem_append.mpr (Or.inl hc'))
      exact List.mem_append.mpr
        (Or.inl (inv.processed_closed k hkold hkq' x hx))
  -- levels
  · refine ⟨(toSimpleGraph g).dist start node, t1, q2 ++ fresh,
      by rw [hrest, List.append_assoc], ht1, ?_⟩
    intro x hx
    rcases List.mem_append.mp hx with hx' | hx'
    · exact hq2 x hx'
    · exact hfdist x hx'
  -- frontier
  · intro h t hh hRt hdt
    rw [hkeys]
    rcases t1 with _ | ⟨a, t1'⟩
    · -- the whole queue is now at level D + 1
      rw [List.nil_append] at hrest
      have hall : ∀ x ∈ rest ++ fresh,
          (toSimpleGraph g).dist start x = (toSimpleGraph g).dist start node + 1 := by
        intro x hx
        rcases List.mem_append.mp hx with hx' | hx'
        · exact hq2 x (hrest ▸ hx')
        · exact hfdist x hx'
      have hhd : (toSimpleGraph g).dist start h =
          (toSimpleGraph g).dist start node + 1 := by
        refine hall h ?_
        cases hq : rest ++ fresh with
        | nil => rw [hq] at hh; simp at hh
        | cons b l =>
          rw [hq] at hh
          simp only [List.head?_cons, Option.some_inj] at hh
          rw [← hh]
          exact List.mem_cons_self _ _
      rw [hhd] at hdt
      by_cases hdtD : (toSimpleGraph g).dist start t ≤ (toSimpleGraph g).dist start node
      · exact List.mem_append.mpr (Or.inl (inv.frontier node t rfl hRt hdtD))
      · have hdteq : (toSimpleGraph g).dist start t =
            (toSimpleGraph g).dist start node + 1 := by omega
        obtain ⟨p, hadj, hRp, hdp⟩ := exists_pred_of_dist g hRt hdteq
        have hpk : p ∈ dist.map Prod.fst :=
          inv.frontier node p rfl hRp (le_of_eq hdp)
        have ht_nb : t ∈ g.neighbors p := (mem_neighbors g p t).mpr hadj.2
        by_cases hpn : p = node
        · -- the predecessor is the node just processed: neighbor coverage
          subst hpn
          rcases hfcov t ht_nb with hm | hm
          · exact List.mem_append.mpr (Or.inl hm)
          · exact List.mem_append.mpr (Or.inr hm)
        · -- the predecessor was processed earlier: closure applies
          have hpq : p ∉ rest ++ fresh := by
            intro hc
            have := hall p hc
            omega
          have hpq' : p ∉ node :: rest := by
            intro hc
            rcases List.mem_cons.mp hc with hc' | hc'
            · exact hpn hc'
            · exact hpq (List.mem_append.mpr (Or.inl hc'))
          exact List.mem_append.mpr
            (Or.inl (inv.processed_closed p hpk hpq' t ht_nb))
    · -- the new head is still at level D: the old frontier applies
      have hha : h = a := by
        rw [hrest] at hh
        simp only [List.cons_append, List.head?_cons, Option.some_inj] at hh
        exact hh.symm
      have hda : (toSimpleGraph g).dist start a = (toSimpleGraph g).dist start node :=
        ht1 a (List.mem_cons_self _ _)
      have hle : (toSimpleGraph g).dist start t ≤ (toSimpleGraph g).dist start node := by
        rw [hha, hda] at hdt; exact hdt
      exact List.mem_append.mpr (Or.inl (inv.frontier node t rfl hRt hle))

/-- A key set containing `start` and closed under neighbors contains every
node reachable from `start`. -/
lemma keys_complete_of_closed (g : Graph) (start : ℕ) (keys : List ℕ)
    (hstart : start ∈ keys)
    (hclosed : ∀ u ∈ keys, ∀ x ∈ g.neighbors u, x ∈ keys) :
    ∀ t, (toSimpleGraph g).Reachable start t → t ∈ keys := by
  suffices haux : ∀ u v, ∀ _ : (toSimpleGraph g).Walk u v, u ∈ keys → v ∈ keys by
    intro t hr
    obtain ⟨w⟩ := hr
    exact haux start t w hstart
  intro u v w
  induction w with
  | nil => exact fun h => h
  | cons hadj p ih =>
    intro hu
    exact ih (hclosed _ hu _ ((mem_neighbors g _ _).mpr hadj.2))

lemma length_endpoints (es : List (ℕ × ℕ)) :
    (es.flatMap (fun e => [e.1, e.2])).length = 2 * es.length := by
  induction es with
  | nil => rfl
  | cons e t ih => simp only [List.flatMap_cons, List.length_append, ih,
      List.length_cons, List.length_singleton, List.length_nil]; omega

/-- The distance map never exceeds the number of possible keys. -/
lemma dist_length_le (g : Graph) (start : ℕ) (dist : List (ℕ × ℕ))
    (hnd : (dist.map Prod.fst).Nodup)
    (hb : ∀ k ∈ dist.map Prod.fst, k = start ∨ ∃ e ∈ g.edges, k = e.1 ∨ k = e.2) :
    dist.length ≤ 1 + 2 * g.edges.length := by
  have hsub : dist.map Prod.fst ⊆ start :: g.edges.flatMap (fun e => [e.1, e.2]) := by
    intro k hk
    rcases hb k hk with rfl | ⟨e, he, ho⟩
    · exact List.mem_cons_self _ _
    · refine List.mem_cons_of_mem _ (List.mem_flatMap.mpr ⟨e, he, ?_⟩)
      rcases ho with rfl | rfl
      · exact List.mem_cons_self _ _
      · exact List.mem_cons_of_mem _ (List.mem_singleton.mpr rfl)
  have h1 : dist.length = (dist.map Prod.fst).toFinset.card := by
    rw [List.toFinset_card_of_nodup hnd, List.length_map]
  have h2 : (dist.map Prod.fst).toFinset.card ≤
      (start :: g.edges.flatMap (fun e => [e.1, e.2])).toFinset.card :=
    Finset.card_le_card
      (fun x hx => List.mem_toFinset.mpr (hsub (List.mem_toFinset.mp hx)))
  have h3 := List.toFinset_card_le (start :: g.edges.flatMap (fun e => [e.1, e.2]))
  have h4 : (start :: g.edges.flatMap (fun e => [e.1, e.2])).length =
      1 + 2 * g.edges.length := by
    rw [List.length_cons, length_endpoints]; omega
  omega

/-- Main loop lemma: from any invariant state, with enough fuel, `bfsLoop`
returns a duplicate-free map assigning exactly the reachable nodes their
true shortest-path distances. -/
lemma bfsLoop_correct (g : Graph) (start : ℕ) :
    ∀ (fuel : ℕ) (dist : List (ℕ × ℕ)) (queue : List ℕ),
      BfsInv g start dist queue →
      2 * ((1 + 2 * g.edges.length) - dist.length) + queue.length ≤ fuel →
      ((bfsLoop g fuel dist queue).map Prod.fst).Nodup ∧
      (∀ p ∈ bfsLoop g fuel dist queue, (toSimpleGraph g).Reachable start p.1 ∧
        p.2 = (toSimpleGraph g).dist start p.1) ∧
      (∀ t, (toSimpleGraph g).Reachable start t →
        t ∈ (bfsLoop g fuel dist queue).map Prod.fst) := by
  intro fuel
  induction fuel with
  | zero =>
    intro dist queue inv hm
    have hq : queue = [] := by
      cases queue with
      | nil => rfl
      | cons a l => simp at hm
    subst hq
    refine ⟨inv.nodupKeys, inv.vals, ?_⟩
    exact keys_complete_of_closed g start _ inv.start_mem
      (fun u hu => inv.processed_closed u hu (List.not_mem_nil u))
  | succ f ih =>
    intro dist queue inv hm
    cases queue with
    | nil =>
      refine ⟨inv.nodupKeys, inv.vals, ?_⟩
      exact keys_complete_of_closed g start _ inv.start_mem
        (fun u hu => inv.processed_closed u hu (List.not_mem_nil u))
    | cons node rest =>
      obtain ⟨fresh, heq, inv'⟩ := bfs_step_preserves g start node rest dist inv
      have hstep : bfsLoop g (f + 1) dist (node :: rest) =
          bfsLoop g f
            (dist ++ fresh.map (fun x => (x, (toSimpleGraph g).dist start node + 1)))
            (rest ++ fresh) := by
        show bfsLoop g f
            ((g.neighbors node).foldl (bfsStep ((lookupD dist node).getD 0)) (dist, rest)).1
            ((g.neighbors node).foldl (bfsStep ((lookupD dist node).getD 0)) (dist, rest)).2 =
          _
        rw [heq]
      rw [hstep]
      refine ih _ _ inv' ?_
      have hlen' := dist_length_le g start _ inv'.nodupKeys inv'.keys_bound
      rw [List.length_append, List.length_map] at hlen'
      rw [List.length_append, List.length_map, List.length_append]
      rw [List.length_cons] at hm
      omega

/-- Specification of `bfs_distances`: the returned association list has
duplicate-free keys, every entry pairs a reachable node with its exact
shortest-path distance, and every reachable node appears. -/
lemma bfs_distances_spec (g : Graph) (start : ℕ) :
    ((bfs_distances g start).map Prod.fst).Nodup ∧
    (∀ p ∈ bfs_distances g start, (toSimpleGraph g).Reachable start p.1 ∧
      p.2 = (toSimpleGraph g).dist start p.1) ∧
    (∀ t, (toSimpleGraph g).Reachable start t →
      t ∈ (bfs_distances g start).map Prod.fst) := by
  refine bfsLoop_correct g start (bfsFuel g) [(start, 0)] [start] ?_ ?_
  · constructor
    · simp
    · simp
    · intro x hx
      simpa using hx
    · intro p hp
      rw [List.mem_singleton] at hp
      subst hp
      exact ⟨SimpleGraph.Reachable.refl _, SimpleGraph.dist_self.symm⟩
    · intro k hk
      simp only [List.map_cons, List.map_nil, List.mem_singleton] at hk
      exact Or.inl hk
    · intro k hk hkq
      exact absurd (by simpa using hk) (by simpa using hkq)
    · refine ⟨0, [start], [], rfl, ?_, by simp⟩
      intro x hx
      rw [List.mem_singleton] at hx
      subst hx
      exact SimpleGraph.dist_self
    · intro h t hh hRt hdt
      simp only [List.head?_cons, Option.some_inj] at hh
      subst hh
      rw [SimpleGraph.dist_self] at hdt
      have h0 : (toSimpleGraph g).dist start t = 0 := Nat.le_zero.mp hdt
      have := (hRt.dist_eq_zero_iff).mp h0
      simp [this]
  · rw [bfsFuel, List.length_singleton, List.length_singleton]
    omega

/-- The key set of a BFS result is exactly the set of reachable nodes. -/
lemma mem_bfs_keys_iff (g : Graph) (start t : ℕ) :
    t ∈ (bfs_distances g start).map Prod.fst ↔ (toSimpleGraph g).Reachable start t := by
  constructor
  · intro ht
    obtain ⟨p, hp, hpt⟩ := List.mem_map.mp ht
    exact hpt ▸ ((bfs_distances_spec g start).2.1 p hp).1
  · exact (bfs_distances_spec g start).2.2 t

/-- Lookup in a BFS result succeeds exactly on reachable nodes, and returns
the true shortest-path distance. -/
lemma lookupD_bfs (g : Graph) (start t v : ℕ) :
    lookupD (bfs_distances g start) t = some v ↔
      (toSimpleGraph g).Reachable start t ∧ v = (toSimpleGraph g).dist start t := by
  constructor
  · intro h
    have hmem := lookupD_mem _ _ _ h
    exact ((bfs_distances_spec g start).2.1 (t, v) hmem)
  · rintro ⟨hr, rfl⟩
    have ht := (mem_bfs_keys_iff g start t).mpr hr
    obtain ⟨p, hp, hpt⟩ := List.mem_map.mp ht
    have hv' := ((bfs_distances_spec g start).2.1 p hp).2
    have hpe : p = (t, (toSimpleGraph g).dist start t) := by
      rw [Prod.ext_iff]
      exact ⟨hpt, by rw [hv', hpt]⟩
    exact mem_lookupD _ _ _ (bfs_distances_spec g start).1 (hpe ▸ hp)

/-- **C3.** For every graph and every start node, `bfs_distances` returns a
map whose keys are exactly the nodes reachable from the start — the start
itself included, at distance 0, and unreachable nodes absent (no
infinite-distance sentinel) — and whose value for each key is the minimum
number of edges on any path from the start to that node: some path attains
the stored value, and every walk is at least that long. -/
theorem bfs_distances_correct (g : Graph) (start : ℕ) :
    (∀ t, t ∈ (bfs_distances g start).map Prod.fst ↔
      (toSimpleGraph g).Reachable start t) ∧
    lookupD (bfs_distances g start) start = some 0 ∧
    (∀ t v, lookupD (bfs_distances g start) t = some v →
      (∃ p : (toSimpleGraph g).Walk start t, p.IsPath ∧ p.length = v) ∧
      (∀ w : (toSimpleGraph g).Walk start t, v ≤ w.length)) := by
  refine ⟨mem_bfs_keys_iff g start, ?_, ?_⟩
  · exact (lookupD_bfs g start start 0).mpr
      ⟨SimpleGraph.Reachable.refl _, SimpleGraph.dist_self.symm⟩
  · intro t v h
    obtain ⟨hr, rfl⟩ := (lookupD_bfs g start t v).mp h
    constructor
    · obtain ⟨p, hp, hlen⟩ := hr.exists_path_of_dist
      exact ⟨p, hp, hlen⟩
    · intro w
      exact SimpleGraph.dist_le w

/-- Witness for `bfs_distances_correct`: the three-node chain A–B–C; BFS from
A stores distance 2 for C, attained by a path and minimal over all walks. -/
theorem bfs_distances_correct_witness :
    (2 ∈ (bfs_distances
        ⟨[(⟨2025, 4, 1⟩, "A"), (⟨2025, 4, 1⟩, "B"), (⟨2025, 4, 1⟩, "C")],
          [(0, 1), (1, 2)]⟩ 0).map Prod.fst ↔
      (toSimpleGraph ⟨[(⟨2025, 4, 1⟩, "A"), (⟨2025, 4, 1⟩, "B"), (⟨2025, 4, 1⟩, "C")],
          [(0, 1), (1, 2)]⟩).Reachable 0 2) ∧
    lookupD (bfs_distances
        ⟨[(⟨2025, 4, 1⟩, "A"), (⟨2025, 4, 1⟩, "B"), (⟨2025, 4, 1⟩, "C")],
          [(0, 1), (1, 2)]⟩ 0) 0 = some 0 ∧
    lookupD (bfs_distances
        ⟨[(⟨2025, 4, 1⟩, "A"), (⟨2025, 4, 1⟩, "B"), (⟨2025, 4, 1⟩, "C")],
          [(0, 1), (1, 2)]⟩ 0) 2 = some 2 ∧
    (∃ p : (toSimpleGraph ⟨[(⟨2025, 4, 1⟩, "A"), (⟨2025, 4, 1⟩, "B"),
        (⟨2025, 4, 1⟩, "C")], [(0, 1), (1, 2)]⟩).Walk 0 2, p.IsPath ∧ p.length = 2) ∧
    (∀ w : (toSimpleGraph ⟨[(⟨2025, 4, 1⟩, "A"), (⟨2025, 4, 1⟩, "B"),
        (⟨2025, 4, 1⟩, "C")], [(0, 1), (1, 2)]⟩).Walk 0 2, 2 ≤ w.length) :=
  ⟨(bfs_distances_correct _ 0).1 2,
    (bfs_distances_correct _ 0).2.1,
    by decide,
    ((bfs_distances_correct _ 0).2.2 2 2 (by decide)).1,
    ((bfs_distances_correct _ 0).2.2 2 2 (by decide)).2⟩

section DegreeLemmas

lemma neighbors_length (g : Graph) (v : ℕ) :
    (g.neighbors v).length =
      (g.edges.filter (fun e => decide (e.1 = v) || decide (e.2 = v))).length := by
  unfold Graph.neighbors
  induction g.edges with
  | nil => rfl
  | cons e es ih =>
    simp only [List.foldr_cons, List.filter_cons]
    by_cases h1 : e.1 = v
    · simp [h1, ih]
    · by_cases h2 : e.2 = v
      · simp [h1, h2, ih]
      · simp [h1, h2, ih]

lemma bumpEntry_sum (m : List (ℕ × ℕ)) (k : ℕ) :
    ((bumpEntry m k).map (fun p => p.1 * p.2)).sum =
      ((m.map (fun p => p.1 * p.2)).sum) + k := by
  induction m with
  | nil => simp [bumpEntry]
  | cons p rest ih =>
    obtain ⟨k', v⟩ := p
    by_cases h : k' = k
    · subst h
      have hb : bumpEntry ((k', v) :: rest) k' = (k', v + 1) :: rest := by
        simp [bumpEntry]
      rw [hb]
      simp only [List.map_cons, List.sum_cons]
      ring
    · simp only [bumpEntry, if_neg h, List.map_cons, List.sum_cons, ih]
      ring

lemma foldl_bump_sum (deg : ℕ → ℕ) (idxs : List ℕ) :
    ∀ m : List (ℕ × ℕ),
      (((idxs.foldl (fun m i => bumpEntry m (deg i)) m)).map (fun p => p.1 * p.2)).sum =
        ((m.map (fun p => p.1 * p.2)).sum) + (idxs.map deg).sum := by
  induction idxs with
  | nil => simp
  | cons i rest ih =>
    intro m
    simp only [List.foldl_cons, List.map_cons, List.sum_cons, ih, bumpEntry_sum]
    ring

lemma count_incident (n : ℕ) (e : ℕ × ℕ) (h1 : e.1 < n) (h2 : e.2 < n) (hne : e.1 ≠ e.2) :
    (∑ v in Finset.range n, if e.1 = v ∨ e.2 = v then 1 else 0) = 2 := by
  rw [Finset.sum_boole]
  have hset : Finset.filter (fun v => e.1 = v ∨ e.2 = v) (Finset.range n) =
      {e.1, e.2} := by
    ext v
    simp only [Finset.mem_filter, Finset.mem_range, Finset.mem_insert, Finset.mem_singleton]
    constructor
    · rintro ⟨_, rfl | rfl⟩
      · exact Or.inl rfl
      · exact Or.inr rfl
    · rintro (rfl | rfl)
      · exact ⟨h1, Or.inl rfl⟩
      · exact ⟨h2, Or.inr rfl⟩
  rw [hset]
  have : ({e.1, e.2} : Finset ℕ).card = 2 := by
    rw [Finset.card_insert_of_not_mem (by simpa using hne), Finset.card_singleton]
  rw [this]
  rfl

lemma handshake (n : ℕ) (es : List (ℕ × ℕ))
    (hprop : ∀ e ∈ es, e.1 < n ∧ e.2 < n ∧ e.1 ≠ e.2) :
    ((List.range n).map
      (fun v => (es.filter (fun e => decide (e.1 = v) || decide (e.2 = v))).length)).sum =
      2 * es.length := by
  induction es with
  | nil => simp
  | cons e t ih =>
    have he := hprop e (List.mem_cons_self _ _)
    have ht := fun x hx => hprop x (List.mem_cons_of_mem _ hx)
    have hsplit : ∀ v : ℕ,
        ((e :: t).filter (fun e' => decide (e'.1 = v) || decide (e'.2 = v))).length =
          (if e.1 = v ∨ e.2 = v then 1 else 0) +
            (t.filter (fun e' => decide (e'.1 = v) || decide (e'.2 = v))).length := by
      intro v
      rw [List.filter_cons]
      by_cases h : e.1 = v ∨ e.2 = v
      · have hb : (decide (e.1 = v) || decide (e.2 = v)) = true := by
          rcases h with h | h <;> simp [h]
        rw [if_pos hb, if_pos h, List.length_cons]
        omega
      · have hb : (decide (e.1 = v) || decide (e.2 = v)) = false := by
          push_neg at h
          simp [h.1, h.2]
        rw [if_neg (by simp [hb]), if_neg h]
        omega
    have ihs : (∑ v in Finset.range n,
        (t.filter (fun e' => decide (e'.1 = v) || decide (e'.2 = v))).length) =
        2 * t.length := ih ht
    show (∑ v in Finset.range n,
        ((e :: t).filter (fun e' => decide (e'.1 = v) || decide (e'.2 = v))).length) =
      2 * (e :: t).length
    have h1 : (∑ v in Finset.range n,
        ((e :: t).filter (fun e' => decide (e'.1 = v) || decide (e'.2 = v))).length) =
        ∑ v in Finset.range n, ((if e.1 = v ∨ e.2 = v then 1 else 0) +
          (t.filter (fun e' => decide (e'.1 = v) || decide (e'.2 = v))).length) :=
      Finset.sum_congr rfl (fun v _ => hsplit v)
    rw [h1, Finset.sum_add_distrib, count_incident n e he.1 he.2.1 he.2.2, ihs,
      List.length_cons]
    ring

end DegreeLemmas

/-- **C5.** For every graph produced by the Graph Builder, the sum of all
node degrees equals twice the edge count; equivalently, summing
`degree × count` over the `degree_distribution` map gives twice the edge
count. -/
theorem degree_sum_eq_twice_edges (entries : List GNode) :
    ((List.range (build_graph entries).nodes.length).map
        (fun v => ((build_graph entries).neighbors v).length)).sum =
      2 * (build_graph entries).edge_count ∧
    ((degree_distribution (build_graph entries)).map (fun p => p.1 * p.2)).sum =
      2 * (build_graph entries).edge_count := by
  have hprop : ∀ e ∈ (build_graph entries).edges,
      e.1 < (build_graph entries).nodes.length ∧
      e.2 < (build_graph entries).nodes.length ∧ e.1 ≠ e.2 := by
    intro e he
    rw [build_graph_edges] at he
    obtain ⟨hlt, hlen, _⟩ := build_edges_props _ e he
    exact ⟨Nat.lt_trans hlt hlen, hlen, Nat.ne_of_lt hlt⟩
  have hmain : ((List.range (build_graph entries).nodes.length).map
      (fun v => ((build_graph entries).neighbors v).length)).sum =
      2 * (build_graph entries).edge_count := by
    have hcong : ((List.range (build_graph entries).nodes.length).map
        (fun v => ((build_graph entries).neighbors v).length)).sum =
        ((List.range (build_graph entries).nodes.length).map
          (fun v => ((build_graph entries).edges.filter
            (fun e => decide (e.1 = v) || decide (e.2 = v))).length)).sum := by
      show (∑ v in Finset.range _, _) = (∑ v in Finset.range _, _)
      exact Finset.sum_congr rfl (fun v _ => neighbors_length _ v)
    rw [hcong]
    exact handshake _ _ hprop
  refine ⟨hmain, ?_⟩
  have hdd := foldl_bump_sum (fun i => ((build_graph entries).neighbors i).length)
    (List.range (build_graph entries).nodes.length) []
  unfold degree_distribution
  rw [hdd]
  simpa using hmain

section AnalysisLemmas

lemma map_snd_sum (m : List (ℕ × ℕ)) (f : ℕ → ℕ) (hv : ∀ p ∈ m, p.2 = f p.1) :
    (m.map Prod.snd).sum = ((m.map Prod.fst).map f).sum := by
  induction m with
  | nil => rfl
  | cons p rest ih =>
    simp only [List.map_cons, List.sum_cons]
    rw [hv p (List.mem_cons_self _ _),
      ih (fun q hq => hv q (List.mem_cons_of_mem _ hq))]

lemma mem_reachFinset (g : Graph) (s t : ℕ) :
    t ∈ reachFinset g s ↔ (toSimpleGraph g).Reachable s t := by
  rw [reachFinset, List.mem_toFinset]
  exact mem_bfs_keys_iff g s t

/-- The per-start sum of BFS distances equals the sum of the true distances
over the reachable set. -/
lemma distSum_eq (g : Graph) (s : ℕ) :
    distSum g s = ∑ t in reachFinset g s, (toSimpleGraph g).dist s t := by
  rw [distSum, map_snd_sum _ (fun t => (toSimpleGraph g).dist s t)
    (fun p hp => ((bfs_distances_spec g s).2.1 p hp).2)]
  rw [reachFinset, List.sum_toFinset _ (bfs_distances_spec g s).1]

/-- The per-start count of BFS entries equals the size of the reachable set. -/
lemma distCount_eq (g : Graph) (s : ℕ) :
    distCount g s = (reachFinset g s).card := by
  rw [distCount, reachFinset, List.toFinset_card_of_nodup (bfs_distances_spec g s).1,
    List.length_map]

lemma self_mem_reachFinset (g : Graph) (s : ℕ) : s ∈ reachFinset g s :=
  (mem_reachFinset g s s).mpr (SimpleGraph.Reachable.refl s)

end AnalysisLemmas

/-- **C7.** For every graph and every node `i`, the closeness score computed
by `closeness_centrality` (entry `i` of its internal `scores` vector) equals
`(node count − 1) / Σ`, where `Σ` is the sum of node `i`'s BFS distances to
all nodes reachable from it, whenever `Σ` is positive, and equals exactly 0
otherwise; in particular an isolated node (degree 0) always scores exactly 0. -/
theorem closeness_scores_correct (g : Graph) (i : ℕ) (hi : i < g.nodes.length) :
    (closeness_scores g).get? i = some (g.nodes.getD i (⟨0, 0, 0⟩, ""),
      if 0 < ∑ t in reachFinset g i, (toSimpleGraph g).dist i t
      then F64.fin (((g.nodes.length : ℚ) - 1) /
        ((∑ t in reachFinset g i, (toSimpleGraph g).dist i t : ℕ) : ℚ))
      else F64.fin 0) ∧
    (∀ t, t ∈ reachFinset g i ↔ (toSimpleGraph g).Reachable i t) ∧
    (g.neighbors i = [] → (closeness_scores g).get? i =
      some (g.nodes.getD i (⟨0, 0, 0⟩, ""), F64.fin 0)) := by
  have hget : (closeness_scores g).get? i =
      some (g.nodes.getD i (⟨0, 0, 0⟩, ""), closenessScore g i) := by
    rw [closeness_scores, List.get?_map, List.get?_range hi]
    rfl
  have hscore : closenessScore g i =
      if 0 < ∑ t in reachFinset g i, (toSimpleGraph g).dist i t
      then F64.fin (((g.nodes.length : ℚ) - 1) /
        ((∑ t in reachFinset g i, (toSimpleGraph g).dist i t : ℕ) : ℚ))
      else F64.fin 0 := by
    rw [closenessScore, distSum_eq]
  refine ⟨by rw [hget, hscore], mem_reachFinset g i, ?_⟩
  intro hiso
  have hreach : ∀ t, (toSimpleGraph g).Reachable i t → t = i := by
    intro t hr
    obtain ⟨w⟩ := hr
    cases w with
    | nil => rfl
    | cons hadj p =>
      exfalso
      have := (mem_neighbors g i _).mpr hadj.2
      rw [hiso] at this
      exact List.not_mem_nil _ this
  have hzero : distSum g i = 0 := by
    rw [distSum_eq]
    refine Finset.sum_eq_zero ?_
    intro t ht
    rw [hreach t ((mem_reachFinset g i t).mp ht)]
    exact SimpleGraph.dist_self
  rw [hget, closenessScore, hzero]
  rfl

/-- Witness for `closeness_scores_correct`: a graph with an isolated node
(the lone 2025-04-02 occurrence, index 2) whose computed score is exactly 0. -/
theorem closeness_scores_correct_witness :
    2 < (build_graph [(⟨2025, 4, 1⟩, "A"), (⟨2025, 4, 1⟩, "B"),
      (⟨2025, 4, 2⟩, "A")]).nodes.length ∧
    (build_graph [(⟨2025, 4, 1⟩, "A"), (⟨2025, 4, 1⟩, "B"),
      (⟨2025, 4, 2⟩, "A")]).neighbors 2 = [] ∧
    (closeness_scores (build_graph [(⟨2025, 4, 1⟩, "A"), (⟨2025, 4, 1⟩, "B"),
      (⟨2025, 4, 2⟩, "A")])).get? 2 =
      some ((⟨2025, 4, 2⟩, "A"), F64.fin 0) :=
  ⟨by decide, by decide,
    (closeness_scores_correct (build_graph [(⟨2025, 4, 1⟩, "A"), (⟨2025, 4, 1⟩, "B"),
      (⟨2025, 4, 2⟩, "A")]) 2 (by decide)).2.2 (by decide)⟩

section SortLemmas

lemma insertBy_length (r : GNode × F64 → GNode × F64 → Bool) (x : GNode × F64) :
    ∀ l : List (GNode × F64), (insertBy r x l).length = l.length + 1 := by
  intro l
  induction l with
  | nil => rfl
  | cons y ys ih =>
    rw [insertBy]
    by_cases h : r x y
    · rw [if_pos h, List.length_cons, List.length_cons]
    · rw [if_neg h, List.length_cons, ih, List.length_cons]

lemma sortByF_length (r : GNode × F64 → GNode × F64 → Bool) :
    ∀ l : List (GNode × F64), (sortByF r l).length = l.length := by
  intro l
  induction l with
  | nil => rfl
  | cons x xs ih =>
    rw [sortByF, insertBy_length, ih, List.length_cons]

lemma closeness_scores_length (g : Graph) :
    (closeness_scores g).length = g.nodes.length := by
  rw [closeness_scores, List.length_map, List.length_range]

end SortLemmas

/-- **C8.** For every graph and every requested count `n`,
`closeness_centrality` returns a list of length `min n (node count)`: in
particular, when `n` exceeds the node count it returns the full
shorter-than-requested ranking rather than aborting. -/
theorem closeness_centrality_length (g : Graph) (n : ℕ) :
    (closeness_centrality g n).length = min n g.nodes.length := by
  rw [closeness_centrality, List.length_take, sortByF_length, closeness_scores_length]

/-- **C10.** `closeness_centrality` never panics in its sort: every computed
score is a non-NaN value — either exactly 0 or a quotient with positive
divisor — so the descending comparator `b.partial_cmp(&a).unwrap()` is
defined on every pair of scores. -/
theorem closeness_scores_no_nan (g : Graph) :
    (∀ x ∈ closeness_scores g, x.2 = F64.fin 0 ∨ ∃ s : ℕ, 0 < s ∧
      x.2 = F64.fin (((g.nodes.length : ℚ) - 1) / (s : ℚ))) ∧
    (∀ x ∈ closeness_scores g, ∀ y ∈ closeness_scores g,
      partialCmpF y.2 x.2 ≠ none) := by
  have hfin : ∀ x ∈ closeness_scores g, ∃ q : ℚ, x.2 = F64.fin q := by
    intro x hx
    obtain ⟨i, _, hix⟩ := List.mem_map.mp hx
    rw [← hix]
    rw [closenessScore]
    by_cases h : 0 < distSum g i
    · rw [if_pos h]; exact ⟨_, rfl⟩
    · rw [if_neg h]; exact ⟨0, rfl⟩
  constructor
  · intro x hx
    obtain ⟨i, _, hix⟩ := List.mem_map.mp hx
    rw [← hix]
    rw [closenessScore]
    by_cases h : 0 < distSum g i
    · rw [if_pos h]
      exact Or.inr ⟨distSum g i, h, rfl⟩
    · rw [if_neg h]
      exact Or.inl rfl
  · intro x hx y hy
    obtain ⟨qx, hqx⟩ := hfin x hx
    obtain ⟨qy, hqy⟩ := hfin y hy
    rw [hqx, hqy]
    simp [partialCmpF]

/-- Witness for `closeness_scores_no_nan`: the single-node graph, whose lone
score is the finite value 0, and the comparator is defined on it. -/
theorem closeness_scores_no_nan_witness :
    ((⟨2025, 4, 1⟩, "A"), F64.fin 0) ∈
      closeness_scores (build_graph [(⟨2025, 4, 1⟩, "A")]) ∧
    (F64.fin 0 = F64.fin 0 ∨ ∃ s : ℕ, 0 < s ∧ F64.fin 0 = F64.fin
      ((((build_graph [(⟨2025, 4, 1⟩, "A")]).nodes.length : ℚ) - 1) / (s : ℚ))) ∧
    partialCmpF (F64.fin 0) (F64.fin 0) ≠ none :=
  ⟨by decide,
    (closeness_scores_no_nan (build_graph [(⟨2025, 4, 1⟩, "A")])).1
      ((⟨2025, 4, 1⟩, "A"), F64.fin 0) (by decide),
    (closeness_scores_no_nan (build_graph [(⟨2025, 4, 1⟩, "A")])).2
      ((⟨2025, 4, 1⟩, "A"), F64.fin 0) (by decide)
      ((⟨2025, 4, 1⟩, "A"), F64.fin 0) (by decide)⟩

/-- **C2.** For every graph with at least one node (hence at least one
reachable ordered pair — each node reaches itself at distance 0),
`avg_shortest_path` equals the sum of true shortest-path distances over all
ordered pairs `(source, target)` with `target` reachable from `source`,
divided by the count of such pairs; `reachFinset` is exactly the reachable
set, so pairs in different connected components contribute to neither the
numerator nor the denominator. -/
theorem avg_shortest_path_correct (g : Graph) (h : 0 < g.nodes.length) :
    (∀ s t, t ∈ reachFinset g s ↔ (toSimpleGraph g).Reachable s t) ∧
    0 < ∑ s in Finset.range g.nodes.length, (reachFinset g s).card ∧
    avg_shortest_path g = F64.fin
      (((∑ s in Finset.range g.nodes.length,
          ∑ t in reachFinset g s, (toSimpleGraph g).dist s t : ℕ) : ℚ) /
        ((∑ s in Finset.range g.nodes.length, (reachFinset g s).card : ℕ) : ℚ)) := by
  have htotal : ((List.range g.nodes.length).map (distSum g)).sum =
      ∑ s in Finset.range g.nodes.length,
        ∑ t in reachFinset g s, (toSimpleGraph g).dist s t := by
    show (∑ s in Finset.range g.nodes.length, distSum g s) = _
    exact Finset.sum_congr rfl (fun s _ => distSum_eq g s)
  have hpairs : ((List.range g.nodes.length).map (distCount g)).sum =
      ∑ s in Finset.range g.nodes.length, (reachFinset g s).card := by
    show (∑ s in Finset.range g.nodes.length, distCount g s) = _
    exact Finset.sum_congr rfl (fun s _ => distCount_eq g s)
  have hpos : 0 < ∑ s in Finset.range g.nodes.length, (reachFinset g s).card := by
    refine Finset.sum_pos' (fun s _ => Nat.zero_le _) ⟨0, Finset.mem_range.mpr h, ?_⟩
    exact Finset.card_pos.mpr ⟨0, self_mem_reachFinset g 0⟩
  refine ⟨mem_reachFinset g, hpos, ?_⟩
  rw [avg_shortest_path, htotal, hpairs, divF, if_neg (Nat.pos_iff_ne_zero.mp hpos)]

/-- Witness for `avg_shortest_path_correct`: the two-node one-edge graph. -/
theorem avg_shortest_path_correct_witness :
    0 < (build_graph [(⟨2025, 4, 1⟩, "A"), (⟨2025, 4, 1⟩, "B")]).nodes.length ∧
    ((1 : ℕ) ∈ reachFinset (build_graph [(⟨2025, 4, 1⟩, "A"), (⟨2025, 4, 1⟩, "B")]) 0 ↔
      (toSimpleGraph (build_graph [(⟨2025, 4, 1⟩, "A"),
        (⟨2025, 4, 1⟩, "B")])).Reachable 0 1) :=
  ⟨by decide,
    (avg_shortest_path_correct (build_graph [(⟨2025, 4, 1⟩, "A"), (⟨2025, 4, 1⟩, "B")])
      (by decide)).1 0 1⟩

/-- **C1 counterexample.** The claim states that a one-node graph yields an
explicit undefined/sentinel average. It does not: a single node's BFS map
contains its self-pair at distance 0, so the denominator is 1 and
`avg_shortest_path` returns the ordinary number `0.0`, not the NaN sentinel. -/
theorem avg_one_node_is_ordinary :
    (build_graph [(⟨2025, 4, 1⟩, "A")]).nodes.length = 1 ∧
    avg_shortest_path (build_graph [(⟨2025, 4, 1⟩, "A")]) = F64.fin 0 ∧
    (F64.fin 0 ≠ F64.nan ∧ F64.fin 0 ≠ F64.inf) := by
  refine ⟨by decide, ?_, by decide, by decide⟩
  have h1 : bfs_distances (build_graph [(⟨2025, 4, 1⟩, "A")]) 0 = [(0, 0)] := by decide
  rw [avg_shortest_path,
    show (build_graph [(⟨2025, 4, 1⟩, "A")]).nodes.length = 1 from by decide,
    show List.range 1 = [0] from rfl]
  rw [show ([0].map (distSum (build_graph [(⟨2025, 4, 1⟩, "A")]))) =
      [distSum (build_graph [(⟨2025, 4, 1⟩, "A")]) 0] from rfl,
    show ([0].map (distCount (build_graph [(⟨2025, 4, 1⟩, "A")]))) =
      [distCount (build_graph [(⟨2025, 4, 1⟩, "A")]) 0] from rfl,
    distSum, distCount, h1]
  norm_num [divF]

/-- **C1 amended.** For the empty graph (zero nodes) the accumulators are
both zero and the `0.0 / 0.0` division yields NaN — the undefined marker —
without faulting; for a one-node graph (a single node and no edges, as the
builder produces from one record) the self-pair makes the denominator 1 and
the result is the ordinary number `0.0`. -/
theorem avg_degenerate_amended :
    (∀ g : Graph, g.nodes = [] → avg_shortest_path g = F64.nan) ∧
    (∀ g : Graph, g.nodes.length = 1 → g.edges = [] →
      avg_shortest_path g = F64.fin 0) := by
  constructor
  · intro g hg
    rw [avg_shortest_path, hg]
    rfl
  · intro g hn he
    have hnb : g.neighbors 0 = [] := by
      rw [Graph.neighbors, he]
      rfl
    have hbfs : bfs_distances g 0 = [(0, 0)] := by
      rw [bfs_distances, bfsFuel, he]
      rw [show (2 * (1 + 2 * ([] : List (ℕ × ℕ)).length) + 1) = 3 from rfl]
      rw [show bfsLoop g 3 [(0, 0)] [0] =
        bfsLoop g 2
          ((g.neighbors 0).foldl (bfsStep ((lookupD [(0, 0)] 0).getD 0)) ([(0, 0)], [])).1
          ((g.neighbors 0).foldl (bfsStep ((lookupD [(0, 0)] 0).getD 0)) ([(0, 0)], [])).2
        from rfl]
      rw [hnb]
      rfl
    rw [avg_shortest_path, hn]
    rw [show List.range 1 = [0] from rfl]
    rw [show ([0].map (distSum g)) = [distSum g 0] from rfl,
      show ([0].map (distCount g)) = [distCount g 0] from rfl]
    rw [distSum, distCount, hbfs]
    norm_num [divF]

/-- Witness for `avg_degenerate_amended`: the empty graph returns NaN and the
builder's one-record graph returns `0.0`. -/
theorem avg_degenerate_amended_witness :
    avg_shortest_path ⟨[], []⟩ = F64.nan ∧
    avg_shortest_path ⟨[(⟨2025, 4, 1⟩, "A")], []⟩ = F64.fin 0 :=
  ⟨avg_degenerate_amended.1 ⟨[], []⟩ rfl,
    avg_degenerate_amended.2 ⟨[(⟨2025, 4, 1⟩, "A")], []⟩ (by decide) rfl⟩
